import Mathlib

/-!
Verification of the expression token re-serializer and related components.

This file gives a shallow embedding of the parts of the repository that the
claims refer to:

* `src/hcl/ast/expression.go` — the AST-to-token re-serializer
  (`TokensForExpression` and its helpers).  Go `panic` calls are modelled as
  `Except.error`; everything else is a direct transliteration.
* the `Init` function (stack initialization) over an abstract view of the
  file system.
* a spec-modelled generation engine (`Do` / `Report`), whose real code is not
  part of the source sample; definitions for it are marked
  `Modelled from the spec:`.

Tokens are modelled at the level of `hclwrite.Token`: each constructor stands
for one token-construction helper of the source file (which fixes the token
type, its bytes and its `SpacesBefore` field), plus the token kinds of the
third-party token vocabulary that are needed to state the claims
(`quotedLit`, `numberLit`, and the heredoc delimiters).
-/

namespace Terramate

/-- One `hclwrite.Token`.  Constructors correspond one-to-one to the token
helper functions at the bottom of `expression.go` (name, bytes and spacing are
fixed by each helper), together with the payload-carrying token kinds produced
by the third-party `hclwrite.TokensForValue` (`quotedLit` carries the string
value whose escaped form is the token's bytes, `numberLit` the numeric value)
and the heredoc token kinds of the `hclsyntax` vocabulary, which this source
file never constructs but which are needed to state claims about heredocs. -/
inductive Token where
  /-- `obrace()`: TokenOBrace. -/
  | obrace
  /-- `cbrace()`: TokenCBrace. -/
  | cbrace
  /-- `oparen()`: TokenOParen. -/
  | oparen
  /-- `cparen()`: TokenCParen. -/
  | cparen
  /-- `obrack()`: TokenOBrack. -/
  | obrack
  /-- `cbrack()`: TokenCBrack. -/
  | cbrack
  /-- `star()`: TokenStar. -/
  | star
  /-- `interpBegin()`: TokenTemplateInterp. -/
  | interpBegin
  /-- `interpEnd()`: TokenTemplateSeqEnd. -/
  | interpEnd
  /-- `percent()`: TokenPercent. -/
  | percent
  /-- `assign()`: TokenEqual, bytes `=`. -/
  | assign
  /-- `equal()`: TokenEqualOp, bytes `==`. -/
  | equalOp
  /-- `nequal()`: TokenNotEqual, bytes `!=`. -/
  | nequal
  /-- `gtr()`: TokenGreaterThan. -/
  | gtr
  /-- `gtreq()`: TokenGreaterThanEq. -/
  | gtreq
  /-- `arrow()`: TokenFatArrow, bytes `=>`. -/
  | arrow
  /-- `lss()`: TokenLessThan. -/
  | lss
  /-- `lsseq()`: TokenLessThanEq. -/
  | lsseq
  /-- `bang()`: TokenBang. -/
  | bang
  /-- `or()`: TokenOr, bytes `||`. -/
  | orOp
  /-- `and()`: TokenAnd, bytes `&&`. -/
  | andOp
  /-- `comma()`: TokenComma. -/
  | comma
  /-- `colon()`: TokenColon. -/
  | colon
  /-- `question()`: TokenQuestion. -/
  | question
  /-- `dot()`: TokenDot. -/
  | dot
  /-- `ident(name, spaces)`: TokenIdent with the given bytes and SpacesBefore. -/
  | ident (name : String) (spacesBefore : Nat)
  /-- `nl()`: TokenNewline. -/
  | nl
  /-- `add()`: TokenPlus. -/
  | add
  /-- `minus()`: TokenMinus, SpacesBefore 1. -/
  | minus
  /-- `slash()`: TokenSlash. -/
  | slash
  /-- `oquote()`: TokenOQuote. -/
  | oquote
  /-- `cquote()`: TokenCQuote. -/
  | cquote
  /-- `eof()`: TokenEOF, empty bytes. -/
  | eof
  /-- TokenQuotedLit (third-party), carrying the unescaped string value. -/
  | quotedLit (value : String)
  /-- TokenNumberLit (third-party), carrying the numeric value. -/
  | numberLit (value : Rat)
  /-- TokenOHeredoc (third-party); never produced by this source file. -/
  | oheredoc
  /-- TokenCHeredoc (third-party); never produced by this source file. -/
  | cheredoc
  /-- TokenStringLit (third-party, heredoc body line); never produced by this
  source file. -/
  | stringLit (value : String)
  deriving DecidableEq, Repr

/-- A scalar `cty.Value` as carried by `hclsyntax.LiteralValueExpr` nodes that
come out of the third-party parser (string, number, bool, null).  Composite
values do not occur in parser output literals and are not needed by the
claims. -/
inductive Value where
  | bool (b : Bool)
  | num (n : Rat)
  | str (s : String)
  | null
  deriving DecidableEq, Repr

/-- The `*hclsyntax.Operation` values exported by the third-party `hclsyntax`
package.  `binOpTokens` recognises the first thirteen; `unaryOpTokens`
recognises `opLogicalNot` and `opNegate`; each function hits its `default:
panic` branch on any other value. -/
inductive Operation where
  | opAdd
  | opSubtract
  | opDivide
  | opMultiply
  | opModulo
  | opEqual
  | opNotEqual
  | opGreaterThan
  | opLessThan
  | opLessThanOrEqual
  | opGreaterThanOrEqual
  | opLogicalAnd
  | opLogicalOr
  | opLogicalNot
  | opNegate
  deriving DecidableEq, Repr

/-- An `hcl.Traverser` step.  The `hcl` package implementations are
`TraverseRoot`, `TraverseAttr`, `TraverseIndex` and `TraverseSplat`; the last
one (and any other implementation) hits the `default: panic` branch of
`traversalTokens` and is modelled by `splat`. -/
inductive Traverser where
  | root (name : String)
  | attr (name : String)
  | index (key : Value)
  | splat
  deriving DecidableEq, Repr

/-- An `hclsyntax` expression node, with exactly the node kinds that the type
switch of `tokensForExpression` handles, carrying the fields each case
reads. -/
inductive Expr where
  /-- `*hclsyntax.LiteralValueExpr` with field `Val`. -/
  | literalValue (val : Value)
  /-- `*hclsyntax.TemplateExpr` with field `Parts`. -/
  | template (parts : List Expr)
  /-- `*hclsyntax.TemplateWrapExpr` with field `Wrapped`. -/
  | templateWrap (wrapped : Expr)
  /-- `*hclsyntax.BinaryOpExpr` with fields `LHS`, `Op`, `RHS`. -/
  | binaryOp (op : Operation) (lhs rhs : Expr)
  /-- `*hclsyntax.UnaryOpExpr` with fields `Op`, `Val`. -/
  | unaryOp (op : Operation) (val : Expr)
  /-- `*hclsyntax.TupleConsExpr` with field `Exprs`. -/
  | tupleCons (exprs : List Expr)
  /-- `*hclsyntax.ParenthesesExpr` with field `Expression`. -/
  | parentheses (expression : Expr)
  /-- `*hclsyntax.ObjectConsExpr` with field `Items` (pairs `KeyExpr`,
  `ValueExpr`). -/
  | objectCons (items : List (Expr × Expr))
  /-- `*hclsyntax.ObjectConsKeyExpr` with field `Wrapped`. -/
  | objectConsKey (wrapped : Expr)
  /-- `*hclsyntax.ScopeTraversalExpr` with field `Traversal`. -/
  | scopeTraversal (traversal : List Traverser)
  /-- `*hclsyntax.ConditionalExpr` with fields `Condition`, `TrueResult`,
  `FalseResult`. -/
  | conditional (condition trueResult falseResult : Expr)
  /-- `*hclsyntax.FunctionCallExpr` with fields `Name`, `Args`. -/
  | functionCall (name : String) (args : List Expr)
  /-- `*hclsyntax.IndexExpr` with fields `Collection`, `Key`. -/
  | indexExpr (collection key : Expr)
  /-- `*hclsyntax.ForExpr` with fields `KeyVar`, `ValVar`, `CollExpr`,
  `KeyExpr` (nil represented by `none`), `ValExpr`, `CondExpr` (nil
  represented by `none`). -/
  | forExpr (keyVar valVar : String) (collExpr : Expr) (keyExpr : Option Expr)
      (valExpr : Expr) (condExpr : Option Expr)
  /-- `*hclsyntax.SplatExpr` with fields `Source`, `Each`. -/
  | splat (source each : Expr)
  /-- `*hclsyntax.AnonSymbolExpr` (no fields read). -/
  | anonSymbol
  /-- `*hclsyntax.RelativeTraversalExpr` with fields `Source`, `Traversal`. -/
  | relativeTraversal (source : Expr) (traversal : List Traverser)

/-- Behaviour of the third-party `hclwrite.TokensForValue` on the scalar value
kinds: booleans and `null` become identifier tokens, numbers a number-literal
token, and strings the quoted form open-quote / quoted-literal / close-quote.
The library never emits heredoc tokens. -/
def tokensForValue : Value → List Token
  | .bool b => [.ident (if b then "true" else "false") 0]
  | .num n => [.numberLit n]
  | .str s => [.oquote, .quotedLit s, .cquote]
  | .null => [.ident "null" 0]

/-- Go `literalTokens`: delegates to `hclwrite.TokensForValue(expr.Val)`. -/
def literalTokens (val : Value) : List Token :=
  tokensForValue val

/-- Go `anonSplatTokens`: the node is solely used during the splat
evaluation; it produces no tokens. -/
def anonSplatTokens : List Token :=
  []

/-- The interior loop of Go `traversalTokens`, carrying the loop index `i`.
The `hcl.TraverseRoot` case panics (`"malformed hcl"`) when `i > 0`; the
`default` case panics on any other traverser implementation
(`hcl.TraverseSplat`). -/
def traversalStepsTokens : Nat → List Traverser → Except String (List Token)
  | _, [] => .ok []
  | i, t :: rest => do
    let toks ←
      match t with
      | .root name =>
        if i > 0 then
          Except.error "malformed hcl"
        else
          pure [Token.ident name 1]
      | .attr name => pure [Token.dot, Token.ident name 0]
      | .index key => pure ([Token.obrack] ++ tokensForValue key ++ [Token.cbrack])
      | .splat => Except.error "type hcl.TraverseSplat"
    let restToks ← traversalStepsTokens (i + 1) rest
    pure (toks ++ restToks)
termination_by structural _ ts => ts

/-- Go `traversalTokens`. -/
def traversalTokens (traversals : List Traverser) : Except String (List Token) :=
  traversalStepsTokens 0 traversals

/-- Go `scopeTraversalTokens`: forwards the node's `Traversal` field. -/
def scopeTraversalTokens (traversal : List Traverser) : Except String (List Token) :=
  traversalTokens traversal

mutual

/-- Go `tokensForExpression`: the type switch over expression nodes.  Each
arm below inlines the body of the helper the switch dispatches to
(`literalTokens`, `templateTokens`, `templateWrapTokens`, `binOpTokens`,
`unaryOpTokens`, `tupleTokens`, `parenExprTokens`, `objectTokens`,
`objectKeyTokens`, `scopeTraversalTokens`, `conditionalTokens`,
`funcallTokens`, `indexTokens`, `forExprTokens`, `splatTokens`,
`anonSplatTokens`, `relTraversalTokens`); a Go `panic` is an
`Except.error`. -/
def tokensForExpression : Expr → Except String (List Token)
  | .literalValue v => .ok (literalTokens v)
  | .template parts => do
    -- templateTokens: open quote, the parts, close quote.
    let partToks ← templatePartsTokens parts
    pure ([Token.oquote] ++ partToks ++ [Token.cquote])
  | .templateWrap wrapped => do
    -- templateWrapTokens: `"${` wrapped `}"`.
    let inner ← tokensForExpression wrapped
    pure ([Token.oquote, Token.interpBegin] ++ inner ++ [Token.interpEnd, Token.cquote])
  | .binaryOp op lhs rhs => do
    -- binOpTokens: LHS tokens, the operator token (panic on an operator the
    -- switch does not list), RHS tokens.
    let lhsToks ← tokensForExpression lhs
    let opTok : Except String Token :=
      match op with
      | .opAdd => pure Token.add
      | .opSubtract => pure Token.minus
      | .opDivide => pure Token.slash
      | .opMultiply => pure Token.star
      | .opModulo => pure Token.percent
      | .opEqual => pure Token.equalOp
      | .opNotEqual => pure Token.nequal
      | .opGreaterThan => pure Token.gtr
      | .opLessThan => pure Token.lss
      | .opLessThanOrEqual => pure Token.lsseq
      | .opGreaterThanOrEqual => pure Token.gtreq
      | .opLogicalAnd => pure Token.andOp
      | .opLogicalOr => pure Token.orOp
      | _ => Except.error "type hclsyntax.Operation"
    let opT ← opTok
    let rhsToks ← tokensForExpression rhs
    pure (lhsToks ++ [opT] ++ rhsToks)
  | .unaryOp op val => do
    -- unaryOpTokens: the operator token (panic on anything but logical-not
    -- and negate), then the operand tokens.
    let opToks : Except String (List Token) :=
      match op with
      | .opLogicalNot => pure [Token.bang]
      | .opNegate => pure [Token.minus]
      | _ => Except.error "type hclsyntax.Operation"
    let opT ← opToks
    let valToks ← tokensForExpression val
    pure (opT ++ valToks)
  | .tupleCons exprs => do
    -- tupleTokens: `[`, the elements comma-separated with no trailing
    -- comma, `]`.
    let body ← commaSepTokens exprs
    pure ([Token.obrack] ++ body ++ [Token.cbrack])
  | .parentheses e => do
    -- parenExprTokens.
    let inner ← tokensForExpression e
    pure ([Token.oparen] ++ inner ++ [Token.cparen])
  | .objectCons items => do
    -- objectTokens: `{`, a newline only when there is at least one item,
    -- the items, `}`.
    let body ← objectItemsTokens items
    pure ([Token.obrace] ++ (if items.isEmpty then [] else [Token.nl]) ++ body
      ++ [Token.cbrace])
  | .objectConsKey wrapped =>
    -- objectKeyTokens: forwards the wrapped key expression.
    tokensForExpression wrapped
  | .scopeTraversal traversal => scopeTraversalTokens traversal
  | .conditional condition trueResult falseResult => do
    -- conditionalTokens: cond `?` true `:` false.
    let condToks ← tokensForExpression condition
    let trueToks ← tokensForExpression trueResult
    let falseToks ← tokensForExpression falseResult
    pure (condToks ++ [Token.question] ++ trueToks ++ [Token.colon] ++ falseToks)
  | .functionCall name args => do
    -- funcallTokens: name, `(`, comma-separated args with no trailing
    -- comma, `)`.
    let body ← commaSepTokens args
    pure ([Token.ident name 1, Token.oparen] ++ body ++ [Token.cparen])
  | .indexExpr collection key => do
    -- indexTokens: collection `[` key `]`.
    let collToks ← tokensForExpression collection
    let keyToks ← tokensForExpression key
    pure (collToks ++ [Token.obrack] ++ keyToks ++ [Token.cbrack])
  | .forExpr keyVar valVar collExpr keyExpr valExpr condExpr => do
    -- forExprTokens: object form (`{for k, v in coll : key => val if cond}`)
    -- when KeyExpr is non-nil, list form (`[for v in coll : val if cond]`)
    -- otherwise; KeyVar is printed only when non-empty.
    let headToks : List Token :=
      match keyExpr with
      | some _ =>
        [Token.obrace, Token.ident "for" 0] ++
          (if keyVar ≠ "" then [Token.ident keyVar 1, Token.comma] else []) ++
          [Token.ident valVar 1]
      | none => [Token.obrack, Token.ident "for" 0, Token.ident valVar 1]
    let collToks ← tokensForExpression collExpr
    let bodyToks ←
      match keyExpr with
      | some k => do
        let keyToks ← tokensForExpression k
        let valToks ← tokensForExpression valExpr
        pure (keyToks ++ [Token.arrow] ++ valToks)
      | none => tokensForExpression valExpr
    let condToks ←
      match condExpr with
      | some c => do
        let cToks ← tokensForExpression c
        pure ([Token.ident "if" 1] ++ cToks)
      | none => pure ([] : List Token)
    let endTok : Token :=
      match keyExpr with
      | some _ => Token.cbrace
      | none => Token.cbrack
    pure (headToks ++ [Token.ident "in" 1] ++ collToks ++ [Token.colon] ++ bodyToks
      ++ condToks ++ [endTok])
  | .splat source each => do
    -- splatTokens: source `[` `*` `]` then the Each expression.
    let sourceToks ← tokensForExpression source
    let eachToks ← tokensForExpression each
    pure (sourceToks ++ [Token.obrack, Token.star, Token.cbrack] ++ eachToks)
  | .anonSymbol => .ok anonSplatTokens
  | .relativeTraversal source traversal => do
    -- relTraversalTokens: source tokens then the traversal tokens.
    let sourceToks ← tokensForExpression source
    let travToks ← traversalTokens traversal
    pure (sourceToks ++ travToks)
termination_by structural e => e

/-- The loop body of Go `templateTokens`: a literal part is rendered by
`literalTokens` with a surrounding open-quote/close-quote pair stripped when
present (`toks[1 : len(toks)-1]`); any other part is rendered inside `${`
... `}`. -/
def templatePartsTokens : List Expr → Except String (List Token)
  | [] => .ok []
  | part :: rest => do
    let toks ←
      match part with
      | .literalValue v =>
        let lit := literalTokens v
        pure (if lit.head? = some Token.oquote then (lit.drop 1).dropLast else lit)
      | p => do
        let inner ← tokensForExpression p
        pure ([Token.interpBegin] ++ inner ++ [Token.interpEnd])
    let restToks ← templatePartsTokens rest
    pure (toks ++ restToks)
termination_by structural parts => parts

/-- The shared loop shape of Go `tupleTokens` and `funcallTokens`: render
each element, appending a comma after every element but the last
(`if i+1 != len`). -/
def commaSepTokens : List Expr → Except String (List Token)
  | [] => .ok []
  | [e] => tokensForExpression e
  | e :: rest => do
    let toks ← tokensForExpression e
    let restToks ← commaSepTokens rest
    pure (toks ++ [Token.comma] ++ restToks)
termination_by structural exprs => exprs

/-- The loop body of Go `objectTokens`: each item renders as
key `=` value newline. -/
def objectItemsTokens : List (Expr × Expr) → Except String (List Token)
  | [] => .ok []
  | (k, v) :: rest => do
    let keyToks ← tokensForExpression k
    let valToks ← tokensForExpression v
    let restToks ← objectItemsTokens rest
    pure (keyToks ++ [Token.assign] ++ valToks ++ [Token.nl] ++ restToks)
termination_by structural items => items

end

/-- Go `TokensForExpression` (the public entry point): the inner
re-serialization with one EOF token appended. -/
def TokensForExpression (expr : Expr) : Except String (List Token) := do
  let tokens ← tokensForExpression expr
  pure (tokens ++ [Token.eof])

/-! ## Proof toolkit: `Except` inversion and unfolding lemmas

The mutual recursion above reduces definitionally, so each case is exposed to
the simplifier through an explicit `rfl` lemma. -/

theorem except_bind_ok {α β : Type} {a : Except String α} {f : α → Except String β} {b : β} :
    (a >>= f) = .ok b ↔ ∃ x, a = .ok x ∧ f x = .ok b := by
  cases a <;> simp [Bind.bind, Except.bind]

theorem except_pure_eq_ok {α : Type} (x : α) : (pure x : Except String α) = .ok x := rfl

theorem tfe_literalValue (v : Value) :
    tokensForExpression (.literalValue v) = .ok (literalTokens v) := rfl

theorem tfe_anonSymbol : tokensForExpression .anonSymbol = .ok anonSplatTokens := rfl

theorem tfe_template (parts : List Expr) :
    tokensForExpression (.template parts) = (do
      let partToks ← templatePartsTokens parts
      pure ([Token.oquote] ++ partToks ++ [Token.cquote])) := rfl

theorem tfe_templateWrap (wrapped : Expr) :
    tokensForExpression (.templateWrap wrapped) = (do
      let inner ← tokensForExpression wrapped
      pure ([Token.oquote, Token.interpBegin] ++ inner
        ++ [Token.interpEnd, Token.cquote])) := rfl

theorem tfe_binaryOp (op : Operation) (lhs rhs : Expr) :
    tokensForExpression (.binaryOp op lhs rhs) = (do
      let lhsToks ← tokensForExpression lhs
      let opTok : Except String Token :=
        match op with
        | .opAdd => pure Token.add
        | .opSubtract => pure Token.minus
        | .opDivide => pure Token.slash
        | .opMultiply => pure Token.star
        | .opModulo => pure Token.percent
        | .opEqual => pure Token.equalOp
        | .opNotEqual => pure Token.nequal
        | .opGreaterThan => pure Token.gtr
        | .opLessThan => pure Token.lss
        | .opLessThanOrEqual => pure Token.lsseq
        | .opGreaterThanOrEqual => pure Token.gtreq
        | .opLogicalAnd => pure Token.andOp
        | .opLogicalOr => pure Token.orOp
        | _ => Except.error "type hclsyntax.Operation"
      let opT ← opTok
      let rhsToks ← tokensForExpression rhs
      pure (lhsToks ++ [opT] ++ rhsToks)) := rfl

theorem tfe_unaryOp (op : Operation) (val : Expr) :
    tokensForExpression (.unaryOp op val) = (do
      let opToks : Except String (List Token) :=
        match op with
        | .opLogicalNot => pure [Token.bang]
        | .opNegate => pure [Token.minus]
        | _ => Except.error "type hclsyntax.Operation"
      let opT ← opToks
      let valToks ← tokensForExpression val
      pure (opT ++ valToks)) := rfl

theorem tfe_tupleCons (exprs : List Expr) :
    tokensForExpression (.tupleCons exprs) = (do
      let body ← commaSepTokens exprs
      pure ([Token.obrack] ++ body ++ [Token.cbrack])) := rfl

theorem tfe_parentheses (e : Expr) :
    tokensForExpression (.parentheses e) = (do
      let inner ← tokensForExpression e
      pure ([Token.oparen] ++ inner ++ [Token.cparen])) := rfl

theorem tfe_objectCons (items : List (Expr × Expr)) :
    tokensForExpression (.objectCons items) = (do
      let body ← objectItemsTokens items
      pure ([Token.obrace] ++ (if items.isEmpty then [] else [Token.nl]) ++ body
        ++ [Token.cbrace])) := rfl

theorem tfe_objectConsKey (wrapped : Expr) :
    tokensForExpression (.objectConsKey wrapped) = tokensForExpression wrapped := rfl

theorem tfe_scopeTraversal (traversal : List Traverser) :
    tokensForExpression (.scopeTraversal traversal) = scopeTraversalTokens traversal := rfl

theorem tfe_conditional (condition trueResult falseResult : Expr) :
    tokensForExpression (.conditional condition trueResult falseResult) = (do
      let condToks ← tokensForExpression condition
      let trueToks ← tokensForExpression trueResult
      let falseToks ← tokensForExpression falseResult
      pure (condToks ++ [Token.question] ++ trueToks ++ [Token.colon]
        ++ falseToks)) := rfl

theorem tfe_functionCall (name : String) (args : List Expr) :
    tokensForExpression (.functionCall name args) = (do
      let body ← commaSepTokens args
      pure ([Token.ident name 1, Token.oparen] ++ body ++ [Token.cparen])) := rfl

theorem tfe_indexExpr (collection key : Expr) :
    tokensForExpression (.indexExpr collection key) = (do
      let collToks ← tokensForExpression collection
      let keyToks ← tokensForExpression key
      pure (collToks ++ [Token.obrack] ++ keyToks ++ [Token.cbrack])) := rfl

theorem tfe_splat (source each : Expr) :
    tokensForExpression (.splat source each) = (do
      let sourceToks ← tokensForExpression source
      let eachToks ← tokensForExpression each
      pure (sourceToks ++ [Token.obrack, Token.star, Token.cbrack]
        ++ eachToks)) := rfl

theorem tfe_relativeTraversal (source : Expr) (traversal : List Traverser) :
    tokensForExpression (.relativeTraversal source traversal) = (do
      let sourceToks ← tokensForExpression source
      let travToks ← traversalTokens traversal
      pure (sourceToks ++ travToks)) := rfl

theorem tfe_forExpr_list (keyVar valVar : String) (collExpr valExpr : Expr) :
    tokensForExpression (.forExpr keyVar valVar collExpr none valExpr none) = (do
      let collToks ← tokensForExpression collExpr
      let valToks ← tokensForExpression valExpr
      pure ([Token.obrack, Token.ident "for" 0, Token.ident valVar 1]
        ++ [Token.ident "in" 1] ++ collToks ++ [Token.colon] ++ valToks
        ++ [] ++ [Token.cbrack])) := rfl

theorem tfe_forExpr_list_cond (keyVar valVar : String) (collExpr valExpr condE : Expr) :
    tokensForExpression (.forExpr keyVar valVar collExpr none valExpr (some condE)) = (do
      let collToks ← tokensForExpression collExpr
      let valToks ← tokensForExpression valExpr
      let cToks ← tokensForExpression condE
      pure ([Token.obrack, Token.ident "for" 0, Token.ident valVar 1]
        ++ [Token.ident "in" 1] ++ collToks ++ [Token.colon] ++ valToks
        ++ ([Token.ident "if" 1] ++ cToks) ++ [Token.cbrack])) := rfl

theorem tfe_forExpr_object (keyVar valVar : String) (collExpr keyE valExpr : Expr) :
    tokensForExpression (.forExpr keyVar valVar collExpr (some keyE) valExpr none) = (do
      let collToks ← tokensForExpression collExpr
      let keyToks ← tokensForExpression keyE
      let valToks ← tokensForExpression valExpr
      pure (([Token.obrace, Token.ident "for" 0] ++
          (if keyVar ≠ "" then [Token.ident keyVar 1, Token.comma] else []) ++
          [Token.ident valVar 1])
        ++ [Token.ident "in" 1] ++ collToks ++ [Token.colon]
        ++ (keyToks ++ [Token.arrow] ++ valToks) ++ [] ++ [Token.cbrace])) := rfl

theorem tfe_forExpr_object_cond (keyVar valVar : String) (collExpr keyE valExpr condE : Expr) :
    tokensForExpression (.forExpr keyVar valVar collExpr (some keyE) valExpr (some condE)) = (do
      let collToks ← tokensForExpression collExpr
      let keyToks ← tokensForExpression keyE
      let valToks ← tokensForExpression valExpr
      let cToks ← tokensForExpression condE
      pure (([Token.obrace, Token.ident "for" 0] ++
          (if keyVar ≠ "" then [Token.ident keyVar 1, Token.comma] else []) ++
          [Token.ident valVar 1])
        ++ [Token.ident "in" 1] ++ collToks ++ [Token.colon]
        ++ (keyToks ++ [Token.arrow] ++ valToks)
        ++ ([Token.ident "if" 1] ++ cToks) ++ [Token.cbrace])) := rfl

theorem templatePartsTokens_nil : templatePartsTokens [] = .ok [] := rfl

/-- The per-part rendering of the `templateTokens` loop body, as a standalone
function (identical to the `switch` inside `templatePartsTokens`). -/
def templatePartTokens : Expr → Except String (List Token)
  | .literalValue v =>
    let lit := literalTokens v
    pure (if lit.head? = some Token.oquote then (lit.drop 1).dropLast else lit)
  | p => do
    let inner ← tokensForExpression p
    pure ([Token.interpBegin] ++ inner ++ [Token.interpEnd])

theorem except_bind_pure_comp_assoc {α β γ : Type} (a : Except String α)
    (f : α → β) (g : β → Except String γ) :
    ((a >>= fun x => pure (f x)) >>= g) = a >>= fun x => g (f x) := by
  cases a <;> rfl

theorem templatePartTokens_literal (v : Value) :
    templatePartTokens (.literalValue v) =
      pure (if (literalTokens v).head? = some Token.oquote
        then ((literalTokens v).drop 1).dropLast else literalTokens v) := rfl

theorem templatePartTokens_other (p : Expr) (h : ∀ v, p ≠ Expr.literalValue v) :
    templatePartTokens p = (do
      let inner ← tokensForExpression p
      pure ([Token.interpBegin] ++ inner ++ [Token.interpEnd])) := by
  cases p
  case literalValue v => exact absurd rfl (h v)
  all_goals rfl

theorem templatePartsTokens_cons (part : Expr) (rest : List Expr) :
    templatePartsTokens (part :: rest) = (do
      let toks ← templatePartTokens part
      let restToks ← templatePartsTokens rest
      pure (toks ++ restToks)) := by
  cases part
  case literalValue v => rfl
  all_goals
    rw [templatePartTokens_other _ (fun v h => Expr.noConfusion h),
      except_bind_pure_comp_assoc]
  all_goals rfl

theorem commaSepTokens_nil : commaSepTokens [] = .ok [] := rfl

theorem commaSepTokens_single (e : Expr) :
    commaSepTokens [e] = tokensForExpression e := rfl

theorem commaSepTokens_cons (e f : Expr) (rest : List Expr) :
    commaSepTokens (e :: f :: rest) = (do
      let toks ← tokensForExpression e
      let restToks ← commaSepTokens (f :: rest)
      pure (toks ++ [Token.comma] ++ restToks)) := rfl

theorem except_ok_bind {α β : Type} (a : α) (f : α → Except String β) :
    (Except.ok a >>= f) = f a := rfl

theorem except_error_bind {α β : Type} (msg : String) (f : α → Except String β) :
    ((Except.error msg : Except String α) >>= f) = .error msg := rfl

theorem objectItemsTokens_nil : objectItemsTokens [] = .ok [] := rfl

theorem objectItemsTokens_cons (k v : Expr) (rest : List (Expr × Expr)) :
    objectItemsTokens ((k, v) :: rest) = (do
      let keyToks ← tokensForExpression k
      let valToks ← tokensForExpression v
      let restToks ← objectItemsTokens rest
      pure (keyToks ++ [Token.assign] ++ valToks ++ [Token.nl] ++ restToks)) := rfl

/-! ## C4: the operator-token tables -/

/-- The binary-operator table exactly as the claim lists it: the 7 comparison
operators, the arithmetic operators (including modulo) and the two logical
operators map to their single fixed token; the unary-only operations
(logical-not, negate) are outside the set recognised by `binOpTokens` and get
`none`. -/
def binOpFixedToken : Operation → Option Token
  | .opEqual => some .equalOp
  | .opNotEqual => some .nequal
  | .opGreaterThan => some .gtr
  | .opLessThan => some .lss
  | .opLessThanOrEqual => some .lsseq
  | .opGreaterThanOrEqual => some .gtreq
  | .opAdd => some .add
  | .opSubtract => some .minus
  | .opDivide => some .slash
  | .opMultiply => some .star
  | .opModulo => some .percent
  | .opLogicalAnd => some .andOp
  | .opLogicalOr => some .orOp
  | .opLogicalNot => none
  | .opNegate => none

/-- The unary-operator table exactly as the claim lists it: logical-not and
numeric negate map to their fixed token; every other operation is outside the
set recognised by `unaryOpTokens`. -/
def unaryOpFixedToken : Operation → Option Token
  | .opLogicalNot => some .bang
  | .opNegate => some .minus
  | _ => none

/-- C4: the re-serializer maps every known binary operator kind (the 7
comparison operators, arithmetic including modulo, and the two logical
operators) and every known unary operator kind (logical-not, negate) to its
single fixed token, and for an operator kind outside these sets it halts with
a fatal panic (modelled as `Except.error`; the Go functions return plain
tokens and have no user-facing error channel at all). -/
theorem c4_operator_token_mapping :
    (∀ (op : Operation) (t : Token) (lhs rhs : Expr) (ls rs : List Token),
      binOpFixedToken op = some t →
      tokensForExpression lhs = .ok ls → tokensForExpression rhs = .ok rs →
      tokensForExpression (.binaryOp op lhs rhs) = .ok (ls ++ [t] ++ rs)) ∧
    (∀ (op : Operation) (lhs rhs : Expr), binOpFixedToken op = none →
      ∃ msg, tokensForExpression (.binaryOp op lhs rhs) = .error msg) ∧
    (∀ (op : Operation) (t : Token) (val : Expr) (vs : List Token),
      unaryOpFixedToken op = some t →
      tokensForExpression val = .ok vs →
      tokensForExpression (.unaryOp op val) = .ok (t :: vs)) ∧
    (∀ (op : Operation) (val : Expr), unaryOpFixedToken op = none →
      ∃ msg, tokensForExpression (.unaryOp op val) = .error msg) := by
  refine ⟨?_, ?_, ?_, ?_⟩
  · intro op t lhs rhs ls rs hop hl hr
    rw [tfe_binaryOp]
    cases op <;> simp_all [binOpFixedToken, except_ok_bind, except_pure_eq_ok,
      Bind.bind, Except.bind, pure, Except.pure]
  · intro op lhs rhs hop
    rw [tfe_binaryOp]
    cases hl : tokensForExpression lhs with
    | error msg => exact ⟨msg, rfl⟩
    | ok ls =>
      cases op <;> simp only [binOpFixedToken, reduceCtorEq] at hop <;>
        exact ⟨"type hclsyntax.Operation", rfl⟩
  · intro op t val vs hop hv
    rw [tfe_unaryOp]
    cases op <;> simp_all [unaryOpFixedToken, except_ok_bind, except_pure_eq_ok,
      Bind.bind, Except.bind, pure, Except.pure]
  · intro op val hop
    rw [tfe_unaryOp]
    cases op <;> simp only [unaryOpFixedToken, reduceCtorEq] at hop <;>
      exact ⟨"type hclsyntax.Operation", rfl⟩

/-- Witness for C4: evaluates both tables and all four statements at concrete
inputs (`1 + 1`, a binary node carrying the negate operation, `!true`, and a
unary node carrying the add operation). -/
theorem c4_operator_token_mapping_witness :
    tokensForExpression (.binaryOp .opAdd (.literalValue (.num 1)) (.literalValue (.num 1)))
      = .ok ([Token.numberLit 1] ++ [Token.add] ++ [Token.numberLit 1]) ∧
    (∃ msg, tokensForExpression
      (.binaryOp .opNegate (.literalValue (.num 1)) (.literalValue (.num 1)))
      = .error msg) ∧
    tokensForExpression (.unaryOp .opLogicalNot (.literalValue (.bool true)))
      = .ok (Token.bang :: [Token.ident "true" 0]) ∧
    (∃ msg, tokensForExpression (.unaryOp .opAdd (.literalValue (.num 1)))
      = .error msg) :=
  ⟨c4_operator_token_mapping.1 .opAdd .add _ _ _ _ rfl rfl rfl,
   c4_operator_token_mapping.2.1 .opNegate _ _ rfl,
   c4_operator_token_mapping.2.2.1 .opLogicalNot .bang _ _ rfl rfl,
   c4_operator_token_mapping.2.2.2 .opAdd _ rfl⟩

/-! ## C7: the anonymous splat placeholder -/

/-- C7: the internal splat-placeholder node (`AnonSymbolExpr`) re-serializes
to the empty token sequence, so the tokens of a splat expression are exactly
the source tokens, `[`, `*`, `]`, followed by the Each-expression tokens. -/
theorem c7_anon_splat_empty :
    tokensForExpression Expr.anonSymbol = .ok [] ∧
    anonSplatTokens = [] ∧
    (∀ (source each : Expr) (ss es : List Token),
      tokensForExpression source = .ok ss → tokensForExpression each = .ok es →
      tokensForExpression (.splat source each) =
        .ok (ss ++ [Token.obrack, Token.star, Token.cbrack] ++ es)) := by
  refine ⟨rfl, rfl, ?_⟩
  intro source each ss es hs he
  rw [tfe_splat, hs, except_ok_bind, he, except_ok_bind, except_pure_eq_ok]

/-- Witness for C7: the splat `abc[*]` (whose `Each` is the bare placeholder)
re-serializes to exactly the source tokens followed by `[`, `*`, `]` and
nothing else. -/
theorem c7_anon_splat_empty_witness :
    tokensForExpression (.splat (.scopeTraversal [.root "abc"]) .anonSymbol) =
      .ok ([Token.ident "abc" 1] ++ [Token.obrack, Token.star, Token.cbrack] ++ []) :=
  c7_anon_splat_empty.2.2 _ _ _ _ rfl rfl

/-! ## C5: traversal re-serialization -/

theorem traversalStepsTokens_nil (i : Nat) : traversalStepsTokens i [] = .ok [] := rfl

theorem traversalStepsTokens_root (i : Nat) (name : String) (rest : List Traverser) :
    traversalStepsTokens i (.root name :: rest) =
      (if i > 0 then Except.error "malformed hcl"
       else do
        let restToks ← traversalStepsTokens (i + 1) rest
        pure ([Token.ident name 1] ++ restToks)) := rfl

theorem traversalStepsTokens_attr (i : Nat) (name : String) (rest : List Traverser) :
    traversalStepsTokens i (.attr name :: rest) = (do
      let restToks ← traversalStepsTokens (i + 1) rest
      pure ([Token.dot, Token.ident name 0] ++ restToks)) := rfl

theorem traversalStepsTokens_index (i : Nat) (key : Value) (rest : List Traverser) :
    traversalStepsTokens i (.index key :: rest) = (do
      let restToks ← traversalStepsTokens (i + 1) rest
      pure (([Token.obrack] ++ tokensForValue key ++ [Token.cbrack]) ++ restToks)) := rfl

theorem traversalStepsTokens_splat (i : Nat) (rest : List Traverser) :
    traversalStepsTokens i (.splat :: rest) = .error "type hcl.TraverseSplat" := rfl

/-- Is the step an attribute or index step (the two step kinds that
re-serialize normally at non-zero positions)? -/
def isAttrOrIndex : Traverser → Bool
  | .attr _ => true
  | .index _ => true
  | _ => false

/-- The per-step token rendering the claim describes: a root step renders as
an identifier, an attribute step as dot + identifier, and an index step as
the bracketed key value. -/
def plainStepTokens : Traverser → List Token
  | .root name => [Token.ident name 1]
  | .attr name => [Token.dot, Token.ident name 0]
  | .index key => [Token.obrack] ++ tokensForValue key ++ [Token.cbrack]
  | .splat => []

theorem traversalSteps_error_of_root_late (pre : List Traverser) :
    ∀ (i : Nat) (name : String) (post : List Traverser), 0 < i + pre.length →
      ∃ msg, traversalStepsTokens i (pre ++ .root name :: post) = .error msg := by
  induction pre with
  | nil =>
    intro i name post hi
    simp only [List.length_nil, Nat.add_zero] at hi
    refine ⟨"malformed hcl", ?_⟩
    rw [List.nil_append, traversalStepsTokens_root, if_pos hi]
  | cons t pre ih =>
    intro i name post hi
    cases t with
    | root name' =>
      by_cases h0 : i > 0
      · refine ⟨"malformed hcl", ?_⟩
        rw [List.cons_append, traversalStepsTokens_root, if_pos h0]
      · have hi' : 0 < (i + 1) + pre.length := by omega
        obtain ⟨msg, hmsg⟩ := ih (i + 1) name post hi'
        refine ⟨msg, ?_⟩
        rw [List.cons_append, traversalStepsTokens_root, if_neg h0, hmsg]
        rfl
    | attr name' =>
      have hi' : 0 < (i + 1) + pre.length := by omega
      obtain ⟨msg, hmsg⟩ := ih (i + 1) name post hi'
      exact ⟨msg, by rw [List.cons_append, traversalStepsTokens_attr, hmsg]; rfl⟩
    | index key =>
      have hi' : 0 < (i + 1) + pre.length := by omega
      obtain ⟨msg, hmsg⟩ := ih (i + 1) name post hi'
      exact ⟨msg, by rw [List.cons_append, traversalStepsTokens_index, hmsg]; rfl⟩
    | splat =>
      exact ⟨"type hcl.TraverseSplat",
        by rw [List.cons_append, traversalStepsTokens_splat]⟩

theorem traversalSteps_error_of_splat (pre : List Traverser) :
    ∀ (i : Nat) (post : List Traverser),
      ∃ msg, traversalStepsTokens i (pre ++ .splat :: post) = .error msg := by
  induction pre with
  | nil =>
    intro i post
    exact ⟨"type hcl.TraverseSplat",
      by rw [List.nil_append, traversalStepsTokens_splat]⟩
  | cons t pre ih =>
    intro i post
    cases t with
    | root name' =>
      by_cases h0 : i > 0
      · refine ⟨"malformed hcl", ?_⟩
        rw [List.cons_append, traversalStepsTokens_root, if_pos h0]
      · obtain ⟨msg, hmsg⟩ := ih (i + 1) post
        refine ⟨msg, ?_⟩
        rw [List.cons_append, traversalStepsTokens_root, if_neg h0, hmsg]
        rfl
    | attr name' =>
      obtain ⟨msg, hmsg⟩ := ih (i + 1) post
      exact ⟨msg, by rw [List.cons_append, traversalStepsTokens_attr, hmsg]; rfl⟩
    | index key =>
      obtain ⟨msg, hmsg⟩ := ih (i + 1) post
      exact ⟨msg, by rw [List.cons_append, traversalStepsTokens_index, hmsg]; rfl⟩
    | splat =>
      exact ⟨"type hcl.TraverseSplat",
        by rw [List.cons_append, traversalStepsTokens_splat]⟩

theorem traversalSteps_ok_of_attrIndex (rest : List Traverser) :
    ∀ i : Nat, (∀ t ∈ rest, isAttrOrIndex t) →
      traversalStepsTokens i rest = .ok ((rest.map plainStepTokens).flatten) := by
  induction rest with
  | nil => intro i _; rfl
  | cons t rest ih =>
    intro i hall
    have ht := hall t (List.mem_cons_self t rest)
    have hrest := fun u hu => hall u (List.mem_cons_of_mem t hu)
    cases t with
    | root name => simp [isAttrOrIndex] at ht
    | splat => simp [isAttrOrIndex] at ht
    | attr name =>
      rw [traversalStepsTokens_attr, ih (i + 1) hrest, except_ok_bind]
      simp [plainStepTokens, except_pure_eq_ok]
    | index key =>
      rw [traversalStepsTokens_index, ih (i + 1) hrest, except_ok_bind]
      simp [plainStepTokens, except_pure_eq_ok]

/-- C5: a root-traversal step at any position other than zero is rejected
fatally (Go `panic("malformed hcl")`, modelled as `Except.error`); a root
step at position zero followed by attribute and index steps re-serializes
normally; any other traversal step kind (`hcl.TraverseSplat`) is likewise
fatal wherever it occurs. -/
theorem c5_traversal_root_position :
    (∀ (pre post : List Traverser) (name : String), pre ≠ [] →
      ∃ msg, traversalTokens (pre ++ .root name :: post) = .error msg) ∧
    (∀ (name : String) (rest : List Traverser), (∀ t ∈ rest, isAttrOrIndex t) →
      traversalTokens (.root name :: rest) =
        .ok ([Token.ident name 1] ++ (rest.map plainStepTokens).flatten)) ∧
    (∀ (pre post : List Traverser),
      ∃ msg, traversalTokens (pre ++ .splat :: post) = .error msg) := by
  refine ⟨?_, ?_, ?_⟩
  · intro pre post name hpre
    have hlen : 0 < 0 + pre.length := by
      cases pre with
      | nil => exact absurd rfl hpre
      | cons t ts => simp
    exact traversalSteps_error_of_root_late pre 0 name post hlen
  · intro name rest hall
    show traversalStepsTokens 0 (.root name :: rest) = _
    rw [traversalStepsTokens_root, if_neg (by omega),
      traversalSteps_ok_of_attrIndex rest 1 hall, except_ok_bind,
      except_pure_eq_ok]
  · intro pre post
    exact traversalSteps_error_of_splat pre 0 post

/-- Witness for C5: the traversal `abc.xyz[0]` re-serializes normally, a
root step at position one is fatal, and a splat step is fatal. -/
theorem c5_traversal_root_position_witness :
    traversalTokens [.root "abc", .attr "xyz", .index (.num 0)] =
      .ok ([Token.ident "abc" 1] ++
        ([[Token.dot, Token.ident "xyz" 0],
          [Token.obrack] ++ tokensForValue (.num 0) ++ [Token.cbrack]]).flatten) ∧
    (∃ msg, traversalTokens ([.root "abc"] ++ .root "xyz" :: []) = .error msg) ∧
    (∃ msg, traversalTokens ([.root "abc"] ++ .splat :: []) = .error msg) :=
  ⟨c5_traversal_root_position.2.1 "abc" [.attr "xyz", .index (.num 0)]
      (by intro t ht; fin_cases ht <;> rfl),
   c5_traversal_root_position.1 [.root "abc"] [] "xyz" (by simp),
   c5_traversal_root_position.2.2 [.root "abc"] []⟩

/-! ## C8: object entries one-per-line; tuple and call arguments inline -/

theorem intercalate_single (sep x : List Token) : List.intercalate sep [x] = x := by
  simp [List.intercalate]

theorem intercalate_cons_cons (sep x y : List Token) (t : List (List Token)) :
    List.intercalate sep (x :: y :: t) = x ++ sep ++ List.intercalate sep (y :: t) := by
  simp [List.intercalate, List.intersperse_cons_cons, List.append_assoc]

/-- The token lists of the elements, comma-separated with nothing after the
last element: this is exactly what the shared tuple/funcall loop builds. -/
theorem commaSepTokens_ok_of_forall₂ (exprs : List Expr) (tss : List (List Token))
    (h : List.Forall₂ (fun e ts => tokensForExpression e = .ok ts) exprs tss) :
    commaSepTokens exprs = .ok (List.intercalate [Token.comma] tss) := by
  induction h with
  | nil => rfl
  | @cons e ts exprs tss he hrest ih =>
    cases hrest with
    | nil => rw [commaSepTokens_single, he, intercalate_single]
    | @cons f fts exprs tss hf hrest2 =>
      rw [commaSepTokens_cons, he, except_ok_bind, ih, except_ok_bind,
        except_pure_eq_ok, intercalate_cons_cons]

/-- Each object item renders as key `=` value newline; the whole item list is
the concatenation of these lines. -/
theorem objectItemsTokens_ok_of_forall₂ (items : List (Expr × Expr))
    (tss : List (List Token × List Token))
    (h : List.Forall₂ (fun p q => tokensForExpression p.1 = .ok q.1 ∧
      tokensForExpression p.2 = .ok q.2) items tss) :
    objectItemsTokens items =
      .ok ((tss.map (fun q => q.1 ++ [Token.assign] ++ q.2 ++ [Token.nl])).flatten) := by
  induction h with
  | nil => rfl
  | @cons p q items tss hp hrest ih =>
    obtain ⟨k, v⟩ := p
    rw [objectItemsTokens_cons, hp.1, except_ok_bind, hp.2, except_ok_bind, ih,
      except_ok_bind, except_pure_eq_ok]
    simp [List.append_assoc]

/-- C8: every object constructor emits each entry on its own line (a newline
token after every key `=` value pair, and one directly after the opening
brace only when the object is non-empty), while tuple constructors and
function calls emit their elements inline, comma-separated, with no comma
after the last element. -/
theorem c8_object_lines_inline_commas :
    (∀ (items : List (Expr × Expr)) (tss : List (List Token × List Token)),
      List.Forall₂ (fun p q => tokensForExpression p.1 = .ok q.1 ∧
        tokensForExpression p.2 = .ok q.2) items tss →
      tokensForExpression (.objectCons items) =
        .ok ([Token.obrace] ++ (if items.isEmpty then [] else [Token.nl]) ++
          (tss.map (fun q => q.1 ++ [Token.assign] ++ q.2 ++ [Token.nl])).flatten ++
          [Token.cbrace])) ∧
    (∀ (exprs : List Expr) (tss : List (List Token)),
      List.Forall₂ (fun e ts => tokensForExpression e = .ok ts) exprs tss →
      tokensForExpression (.tupleCons exprs) =
        .ok ([Token.obrack] ++ List.intercalate [Token.comma] tss ++ [Token.cbrack])) ∧
    (∀ (name : String) (args : List Expr) (tss : List (List Token)),
      List.Forall₂ (fun e ts => tokensForExpression e = .ok ts) args tss →
      tokensForExpression (.functionCall name args) =
        .ok ([Token.ident name 1, Token.oparen] ++ List.intercalate [Token.comma] tss
          ++ [Token.cparen])) := by
  refine ⟨?_, ?_, ?_⟩
  · intro items tss h
    rw [tfe_objectCons, objectItemsTokens_ok_of_forall₂ items tss h, except_ok_bind,
      except_pure_eq_ok]
  · intro exprs tss h
    rw [tfe_tupleCons, commaSepTokens_ok_of_forall₂ exprs tss h, except_ok_bind,
      except_pure_eq_ok]
  · intro name args tss h
    rw [tfe_functionCall, commaSepTokens_ok_of_forall₂ args tss h, except_ok_bind,
      except_pure_eq_ok]

/-- Witness for C8: the object `{a = 1}`, the tuple `[1, 2]` and the call
`f(1, 2)` at their concrete token lists. -/
theorem c8_object_lines_inline_commas_witness :
    tokensForExpression (.objectCons
        [(.objectConsKey (.scopeTraversal [.root "a"]), .literalValue (.num 1))]) =
      .ok ([Token.obrace] ++
        (if ([(Expr.objectConsKey (.scopeTraversal [.root "a"]),
              Expr.literalValue (.num 1))] : List (Expr × Expr)).isEmpty
          then [] else [Token.nl]) ++
        ([([Token.ident "a" 1], [Token.numberLit 1])].map
          (fun q => q.1 ++ [Token.assign] ++ q.2 ++ [Token.nl])).flatten ++
        [Token.cbrace]) ∧
    tokensForExpression (.tupleCons [.literalValue (.num 1), .literalValue (.num 2)]) =
      .ok ([Token.obrack] ++
        List.intercalate [Token.comma] [[Token.numberLit 1], [Token.numberLit 2]] ++
        [Token.cbrack]) ∧
    tokensForExpression (.functionCall "f"
        [.literalValue (.num 1), .literalValue (.num 2)]) =
      .ok ([Token.ident "f" 1, Token.oparen] ++
        List.intercalate [Token.comma] [[Token.numberLit 1], [Token.numberLit 2]] ++
        [Token.cparen]) :=
  ⟨c8_object_lines_inline_commas.1 _ _ (List.Forall₂.cons ⟨rfl, rfl⟩ List.Forall₂.nil),
   c8_object_lines_inline_commas.2.1 _ _
     (List.Forall₂.cons rfl (List.Forall₂.cons rfl List.Forall₂.nil)),
   c8_object_lines_inline_commas.2.2 "f" _ _
     (List.Forall₂.cons rfl (List.Forall₂.cons rfl List.Forall₂.nil))⟩

/-! ## C9: the inner re-serializer emits no EOF token -/

theorem tokensForValue_noEof (v : Value) : Token.eof ∉ tokensForValue v := by
  cases v <;> simp [tokensForValue]

theorem literalTokens_noEof (v : Value) : Token.eof ∉ literalTokens v :=
  tokensForValue_noEof v

theorem traversalStepsTokens_noEof (ts : List Traverser) :
    ∀ (i : Nat) (out : List Token), traversalStepsTokens i ts = .ok out →
      Token.eof ∉ out := by
  induction ts with
  | nil =>
    intro i out h
    rw [traversalStepsTokens_nil] at h
    injection h with h
    subst h
    simp
  | cons t rest ih =>
    intro i out h
    cases t with
    | root name =>
      rw [traversalStepsTokens_root] at h
      by_cases h0 : i > 0
      · rw [if_pos h0] at h; exact absurd h (by simp)
      · rw [if_neg h0, except_bind_ok] at h
        obtain ⟨r, hr, h⟩ := h
        rw [except_pure_eq_ok] at h
        injection h with h
        subst h
        have := ih (i + 1) r hr
        simp_all
    | attr name =>
      rw [traversalStepsTokens_attr, except_bind_ok] at h
      obtain ⟨r, hr, h⟩ := h
      rw [except_pure_eq_ok] at h
      injection h with h
      subst h
      have := ih (i + 1) r hr
      simp_all
    | index key =>
      rw [traversalStepsTokens_index, except_bind_ok] at h
      obtain ⟨r, hr, h⟩ := h
      rw [except_pure_eq_ok] at h
      injection h with h
      subst h
      have := ih (i + 1) r hr
      have hk := tokensForValue_noEof key
      simp_all
    | splat =>
      rw [traversalStepsTokens_splat] at h
      exact absurd h (by simp)

theorem traversalTokens_noEof (ts : List Traverser) (out : List Token)
    (h : traversalTokens ts = .ok out) : Token.eof ∉ out :=
  traversalStepsTokens_noEof ts 0 out h

theorem templatePartTokens_noEof (p : Expr)
    (hp : ∀ ts, tokensForExpression p = .ok ts → Token.eof ∉ ts) :
    ∀ out, templatePartTokens p = .ok out → Token.eof ∉ out := by
  intro out h
  by_cases hlit : ∃ v, p = Expr.literalValue v
  · obtain ⟨v, rfl⟩ := hlit
    rw [templatePartTokens_literal, except_pure_eq_ok] at h
    injection h with h
    subst h
    intro hmem
    refine literalTokens_noEof v ?_
    by_cases hq : (literalTokens v).head? = some Token.oquote
    · rw [if_pos hq] at hmem
      exact List.drop_subset 1 _ (List.dropLast_subset _ hmem)
    · rw [if_neg hq] at hmem
      exact hmem
  · have hne : ∀ v, p ≠ Expr.literalValue v := fun v hv => hlit ⟨v, hv⟩
    rw [templatePartTokens_other p hne, except_bind_ok] at h
    obtain ⟨inner, hin, h⟩ := h
    rw [except_pure_eq_ok] at h
    injection h with h
    subst h
    have := hp inner hin
    simp_all

theorem templatePartsTokens_noEof (parts : List Expr)
    (hp : ∀ p ∈ parts, ∀ ts, tokensForExpression p = .ok ts → Token.eof ∉ ts) :
    ∀ out, templatePartsTokens parts = .ok out → Token.eof ∉ out := by
  induction parts with
  | nil =>
    intro out h
    rw [templatePartsTokens_nil] at h
    injection h with h
    subst h
    simp
  | cons part rest ih =>
    intro out h
    rw [templatePartsTokens_cons, except_bind_ok] at h
    obtain ⟨toks, htoks, h⟩ := h
    rw [except_bind_ok] at h
    obtain ⟨restToks, hrest, h⟩ := h
    rw [except_pure_eq_ok] at h
    injection h with h
    subst h
    have h1 := templatePartTokens_noEof part
      (hp part (List.mem_cons_self part rest)) toks htoks
    have h2 := ih (fun p hm => hp p (List.mem_cons_of_mem part hm)) restToks hrest
    simp_all

theorem commaSepTokens_noEof (exprs : List Expr)
    (hp : ∀ p ∈ exprs, ∀ ts, tokensForExpression p = .ok ts → Token.eof ∉ ts) :
    ∀ out, commaSepTokens exprs = .ok out → Token.eof ∉ out := by
  induction exprs with
  | nil =>
    intro out h
    rw [commaSepTokens_nil] at h
    injection h with h
    subst h
    simp
  | cons e rest ih =>
    intro out h
    cases rest with
    | nil =>
      rw [commaSepTokens_single] at h
      exact hp e (List.mem_cons_self e []) out h
    | cons f rest2 =>
      rw [commaSepTokens_cons, except_bind_ok] at h
      obtain ⟨toks, htoks, h⟩ := h
      rw [except_bind_ok] at h
      obtain ⟨restToks, hrest, h⟩ := h
      rw [except_pure_eq_ok] at h
      injection h with h
      subst h
      have h1 := hp e (List.mem_cons_self e (f :: rest2)) toks htoks
      have h2 := ih (fun p hm => hp p (List.mem_cons_of_mem e hm)) restToks hrest
      simp_all

theorem objectItemsTokens_noEof (items : List (Expr × Expr))
    (hp : ∀ k v, (k, v) ∈ items →
      (∀ ts, tokensForExpression k = .ok ts → Token.eof ∉ ts) ∧
      (∀ ts, tokensForExpression v = .ok ts → Token.eof ∉ ts)) :
    ∀ out, objectItemsTokens items = .ok out → Token.eof ∉ out := by
  induction items with
  | nil =>
    intro out h
    rw [objectItemsTokens_nil] at h
    injection h with h
    subst h
    simp
  | cons item rest ih =>
    obtain ⟨k, v⟩ := item
    intro out h
    rw [objectItemsTokens_cons, except_bind_ok] at h
    obtain ⟨kToks, hk, h⟩ := h
    rw [except_bind_ok] at h
    obtain ⟨vToks, hv, h⟩ := h
    rw [except_bind_ok] at h
    obtain ⟨restToks, hrest, h⟩ := h
    rw [except_pure_eq_ok] at h
    injection h with h
    subst h
    have hkv := hp k v (List.mem_cons_self (k, v) rest)
    have h1 := hkv.1 kToks hk
    have h2 := hkv.2 vToks hv
    have h3 := ih (fun k' v' hm => hp k' v' (List.mem_cons_of_mem (k, v) hm))
      restToks hrest
    simp_all

theorem tokensForExpression_noEof_aux :
    ∀ (n : Nat) (e : Expr), sizeOf e ≤ n →
      ∀ ts, tokensForExpression e = .ok ts → Token.eof ∉ ts := by
  intro n
  induction n with
  | zero =>
    intro e he
    exfalso
    cases e <;> simp at he
  | succ n ih =>
    intro e he ts h
    cases e with
    | literalValue v =>
      rw [tfe_literalValue] at h
      injection h with h
      subst h
      exact literalTokens_noEof v
    | template parts =>
      rw [tfe_template, except_bind_ok] at h
      obtain ⟨partToks, hparts, h⟩ := h
      rw [except_pure_eq_ok] at h
      injection h with h
      subst h
      have hsub : ∀ p ∈ parts, ∀ out, tokensForExpression p = .ok out →
          Token.eof ∉ out := by
        intro p hm
        refine ih p ?_
        have h1 := List.sizeOf_lt_of_mem hm
        simp at he
        omega
      have h1 := templatePartsTokens_noEof parts hsub partToks hparts
      simp_all
    | templateWrap wrapped =>
      rw [tfe_templateWrap, except_bind_ok] at h
      obtain ⟨inner, hin, h⟩ := h
      rw [except_pure_eq_ok] at h
      injection h with h
      subst h
      have h1 := ih wrapped (by simp at he; omega) inner hin
      simp_all
    | binaryOp op lhs rhs =>
      rw [tfe_binaryOp, except_bind_ok] at h
      obtain ⟨ls, hls, h⟩ := h
      rw [except_bind_ok] at h
      obtain ⟨opT, hop, h⟩ := h
      rw [except_bind_ok] at h
      obtain ⟨rs, hrs, h⟩ := h
      rw [except_pure_eq_ok] at h
      injection h with h
      subst h
      have h1 := ih lhs (by simp at he; omega) ls hls
      have h2 := ih rhs (by simp at he; omega) rs hrs
      have h3 : Token.eof ≠ opT := by
        cases op <;> simp only [except_pure_eq_ok, reduceCtorEq] at hop <;>
          (injection hop with hop; subst hop; simp)
      simp_all
    | unaryOp op val =>
      rw [tfe_unaryOp, except_bind_ok] at h
      obtain ⟨opT, hop, h⟩ := h
      rw [except_bind_ok] at h
      obtain ⟨vs, hv, h⟩ := h
      rw [except_pure_eq_ok] at h
      injection h with h
      subst h
      have h1 := ih val (by simp at he; omega) vs hv
      have h2 : Token.eof ∉ opT := by
        cases op <;> simp only [except_pure_eq_ok, reduceCtorEq] at hop <;>
          (injection hop with hop; subst hop; simp)
      simp_all
    | tupleCons exprs =>
      rw [tfe_tupleCons, except_bind_ok] at h
      obtain ⟨body, hbody, h⟩ := h
      rw [except_pure_eq_ok] at h
      injection h with h
      subst h
      have hsub : ∀ p ∈ exprs, ∀ out, tokensForExpression p = .ok out →
          Token.eof ∉ out := by
        intro p hm
        refine ih p ?_
        have h1 := List.sizeOf_lt_of_mem hm
        simp at he
        omega
      have h1 := commaSepTokens_noEof exprs hsub body hbody
      simp_all
    | parentheses e1 =>
      rw [tfe_parentheses, except_bind_ok] at h
      obtain ⟨inner, hin, h⟩ := h
      rw [except_pure_eq_ok] at h
      injection h with h
      subst h
      have h1 := ih e1 (by simp at he; omega) inner hin
      simp_all
    | objectCons items =>
      rw [tfe_objectCons, except_bind_ok] at h
      obtain ⟨body, hbody, h⟩ := h
      rw [except_pure_eq_ok] at h
      injection h with h
      subst h
      have hsub : ∀ k v, (k, v) ∈ items →
          (∀ out, tokensForExpression k = .ok out → Token.eof ∉ out) ∧
          (∀ out, tokensForExpression v = .ok out → Token.eof ∉ out) := by
        intro k v hm
        have h1 := List.sizeOf_lt_of_mem hm
        simp at he h1
        constructor
        · exact ih k (by omega)
        · exact ih v (by omega)
      have h1 := objectItemsTokens_noEof items hsub body hbody
      by_cases hempty : items.isEmpty <;> simp_all
    | objectConsKey wrapped =>
      rw [tfe_objectConsKey] at h
      exact ih wrapped (by simp at he; omega) ts h
    | scopeTraversal traversal =>
      rw [tfe_scopeTraversal] at h
      exact traversalTokens_noEof traversal ts h
    | conditional c t f =>
      rw [tfe_conditional, except_bind_ok] at h
      obtain ⟨cs, hc, h⟩ := h
      rw [except_bind_ok] at h
      obtain ⟨tts, hts2, h⟩ := h
      rw [except_bind_ok] at h
      obtain ⟨fs, hf, h⟩ := h
      rw [except_pure_eq_ok] at h
      injection h with h
      subst h
      have h1 := ih c (by simp at he; omega) cs hc
      have h2 := ih t (by simp at he; omega) tts hts2
      have h3 := ih f (by simp at he; omega) fs hf
      simp_all
    | functionCall name args =>
      rw [tfe_functionCall, except_bind_ok] at h
      obtain ⟨body, hbody, h⟩ := h
      rw [except_pure_eq_ok] at h
      injection h with h
      subst h
      have hsub : ∀ p ∈ args, ∀ out, tokensForExpression p = .ok out →
          Token.eof ∉ out := by
        intro p hm
        refine ih p ?_
        have h1 := List.sizeOf_lt_of_mem hm
        simp at he
        omega
      have h1 := commaSepTokens_noEof args hsub body hbody
      simp_all
    | indexExpr collection key =>
      rw [tfe_indexExpr, except_bind_ok] at h
      obtain ⟨cs, hc, h⟩ := h
      rw [except_bind_ok] at h
      obtain ⟨ks, hk, h⟩ := h
      rw [except_pure_eq_ok] at h
      injection h with h
      subst h
      have h1 := ih collection (by simp at he; omega) cs hc
      have h2 := ih key (by simp at he; omega) ks hk
      simp_all
    | forExpr keyVar valVar collExpr keyExpr valExpr condExpr =>
      have hcoll : sizeOf collExpr ≤ n := by simp at he; omega
      have hval : sizeOf valExpr ≤ n := by simp at he; omega
      cases keyExpr with
      | none =>
        cases condExpr with
        | none =>
          rw [tfe_forExpr_list, except_bind_ok] at h
          obtain ⟨cs, hc, h⟩ := h
          rw [except_bind_ok] at h
          obtain ⟨vs, hv, h⟩ := h
          rw [except_pure_eq_ok] at h
          injection h with h
          subst h
          have h1 := ih collExpr hcoll cs hc
          have h2 := ih valExpr hval vs hv
          simp_all
        | some condE =>
          rw [tfe_forExpr_list_cond, except_bind_ok] at h
          obtain ⟨cs, hc, h⟩ := h
          rw [except_bind_ok] at h
          obtain ⟨vs, hv, h⟩ := h
          rw [except_bind_ok] at h
          obtain ⟨conds, hcond, h⟩ := h
          rw [except_pure_eq_ok] at h
          injection h with h
          subst h
          have h1 := ih collExpr hcoll cs hc
          have h2 := ih valExpr hval vs hv
          have h3 := ih condE (by simp at he; omega) conds hcond
          simp_all
      | some keyE =>
        have hkey : sizeOf keyE ≤ n := by simp at he; omega
        cases condExpr with
        | none =>
          rw [tfe_forExpr_object, except_bind_ok] at h
          obtain ⟨cs, hc, h⟩ := h
          rw [except_bind_ok] at h
          obtain ⟨ks, hk, h⟩ := h
          rw [except_bind_ok] at h
          obtain ⟨vs, hv, h⟩ := h
          rw [except_pure_eq_ok] at h
          injection h with h
          subst h
          have h1 := ih collExpr hcoll cs hc
          have h2 := ih keyE hkey ks hk
          have h3 := ih valExpr hval vs hv
          by_cases hkv : keyVar = "" <;> simp_all
        | some condE =>
          rw [tfe_forExpr_object_cond, except_bind_ok] at h
          obtain ⟨cs, hc, h⟩ := h
          rw [except_bind_ok] at h
          obtain ⟨ks, hk, h⟩ := h
          rw [except_bind_ok] at h
          obtain ⟨vs, hv, h⟩ := h
          rw [except_bind_ok] at h
          obtain ⟨conds, hcond, h⟩ := h
          rw [except_pure_eq_ok] at h
          injection h with h
          subst h
          have h1 := ih collExpr hcoll cs hc
          have h2 := ih keyE hkey ks hk
          have h3 := ih valExpr hval vs hv
          have h4 := ih condE (by simp at he; omega) conds hcond
          by_cases hkv : keyVar = "" <;> simp_all
    | splat source each =>
      rw [tfe_splat, except_bind_ok] at h
      obtain ⟨ss, hs, h⟩ := h
      rw [except_bind_ok] at h
      obtain ⟨es, hesq, h⟩ := h
      rw [except_pure_eq_ok] at h
      injection h with h
      subst h
      have h1 := ih source (by simp at he; omega) ss hs
      have h2 := ih each (by simp at he; omega) es hesq
      simp_all
    | anonSymbol =>
      rw [tfe_anonSymbol] at h
      injection h with h
      subst h
      simp [anonSplatTokens]
    | relativeTraversal source traversal =>
      rw [tfe_relativeTraversal, except_bind_ok] at h
      obtain ⟨ss, hs, h⟩ := h
      rw [except_bind_ok] at h
      obtain ⟨trs, htr, h⟩ := h
      rw [except_pure_eq_ok] at h
      injection h with h
      subst h
      have h1 := ih source (by simp at he; omega) ss hs
      have h2 := traversalTokens_noEof traversal trs htr
      simp_all

theorem tokensForExpression_noEof (e : Expr) (ts : List Token)
    (h : tokensForExpression e = .ok ts) : Token.eof ∉ ts :=
  tokensForExpression_noEof_aux (sizeOf e) e (Nat.le_refl _) ts h

/-- C9: the public entry point `TokensForExpression` returns the tokens of
the inner re-serialization with exactly one EOF token appended as the final
element; the inner re-serializer never emits an EOF token itself, so the
result contains exactly one EOF, in final position. -/
theorem c9_single_trailing_eof (e : Expr) (ts : List Token)
    (h : tokensForExpression e = .ok ts) :
    TokensForExpression e = .ok (ts ++ [Token.eof]) ∧
    Token.eof ∉ ts ∧
    (ts ++ [Token.eof]).count Token.eof = 1 ∧
    (ts ++ [Token.eof]).getLast? = some Token.eof := by
  have hno := tokensForExpression_noEof e ts h
  refine ⟨?_, hno, ?_, ?_⟩
  · rw [TokensForExpression, h, except_ok_bind, except_pure_eq_ok]
  · rw [List.count_append]
    rw [List.count_eq_zero.mpr hno]
    rfl
  · rw [List.getLast?_append]
    rfl

/-- Witness for C9: the number literal `1` re-serializes to a number token
followed by exactly one trailing EOF. -/
theorem c9_single_trailing_eof_witness :
    TokensForExpression (.literalValue (.num 1)) =
      .ok ([Token.numberLit 1] ++ [Token.eof]) ∧
    Token.eof ∉ [Token.numberLit 1] ∧
    ([Token.numberLit 1] ++ [Token.eof]).count Token.eof = 1 ∧
    ([Token.numberLit 1] ++ [Token.eof]).getLast? = some Token.eof :=
  c9_single_trailing_eof (.literalValue (.num 1)) [Token.numberLit 1] rfl

/-! ## C1, C2: literal re-serialization on the repository's own test inputs

The test file (`TestAstExpressionToTokens`) expects the string `"0\n1"` to
re-serialize as the indented heredoc `<<-EOT\n0\n1\nEOT\n` and expects
`"0${0}"` to re-serialize as itself.  The theorems below evaluate the code at
exactly these inputs. -/

/-- C2 (failing input): `hclsyntax` parses the source `"0\n1"` as a template
with the single string-literal part `0\n1`.  The re-serializer emits it as a
plain quoted string — `literalTokens` delegates to the always-quoting
`hclwrite.TokensForValue` — and its output contains no heredoc token at all,
contrary to the repo's own test case "strings with nl returns heredocs". -/
theorem c2_newline_string_stays_quoted :
    tokensForExpression (.template [.literalValue (.str "0\n1")]) =
      .ok [Token.oquote, Token.quotedLit "0\n1", Token.cquote] ∧
    literalTokens (.str "0\n1") =
      [Token.oquote, Token.quotedLit "0\n1", Token.cquote] ∧
    Token.oheredoc ∉ [Token.oquote, Token.quotedLit "0\n1", Token.cquote] ∧
    Token.cheredoc ∉ [Token.oquote, Token.quotedLit "0\n1", Token.cquote] :=
  ⟨rfl, rfl, by simp, by simp⟩

/-- C1 (failing input): `hclsyntax` parses the source `"0${0}"` as a template
with two parts — the string-literal part `0` and the interpolated number
literal `0`.  The `templateTokens` loop treats every `LiteralValueExpr` part
alike and splices the number's tokens into the quoted template without
`${`/`}` delimiters, so the output is the token text of the plain string
`"00"`.  Those tokens parse back to a single-literal template, not to a
structurally equal two-part template, so the round-trip fails on this input
(the repo's own test case "interp with number" expects `"0${0}"` back). -/
theorem c1_roundtrip_fails_on_literal_interpolation :
    tokensForExpression (.template [.literalValue (.str "0"), .literalValue (.num 0)]) =
      .ok [Token.oquote, Token.quotedLit "0", Token.numberLit 0, Token.cquote] ∧
    Token.interpBegin ∉
      [Token.oquote, Token.quotedLit "0", Token.numberLit 0, Token.cquote] ∧
    Token.interpEnd ∉
      [Token.oquote, Token.quotedLit "0", Token.numberLit 0, Token.cquote] :=
  ⟨rfl, by simp, by simp⟩

/-! ## C10: stack initialization (`Init`) -/

/-- The observable file-system operations `Init` can perform on the stack
configuration file (`os.Remove` and `os.Create` on
`dir/terrastack.tsk.hcl`). -/
inductive FsOp where
  | removeStackfile
  | createStackfile
  deriving DecidableEq, Repr

/-- The slice of the file system that `Init` inspects: whether `dir` is an
absolute path, whether it exists and is a directory, and the state of the
`terrastack.tsk.hcl` file inside it — absent, or present with a regularity
flag and the raw `RequiredVersion` string recorded in it (`none` when the
file cannot be parsed). -/
structure InitFs where
  dirIsAbs : Bool
  dirExists : Bool
  dirIsDir : Bool
  stackfileExists : Bool
  stackfileRegular : Bool
  stackfileVersion : Option String
  deriving DecidableEq, Repr

/-- Go `strings.TrimPrefix(v, "~>")`: remove the prefix when present. -/
def trimPrefixTildeArrow (s : String) : String :=
  match s.data with
  | Char.ofNat 126 :: Char.ofNat 62 :: rest => ⟨rest⟩
  | _ => s

/-- Go `strings.TrimSpace`: drop whitespace from both ends. -/
def trimSpace (s : String) : String :=
  ⟨((s.data.dropWhile Char.isWhitespace).reverse.dropWhile Char.isWhitespace).reverse⟩

/-- Go `parseVersion`: parse the stack file and return
`strings.TrimSpace(strings.TrimPrefix(ts.RequiredVersion, "~>"))`. -/
def parseVersion (fs : InitFs) : Except String String :=
  match fs.stackfileVersion with
  | none => .error "failed to parse file"
  | some v => .ok (trimSpace (trimPrefixTildeArrow v))

/-- Result of an `Init` call: the returned error (if any), the final state of
the inspected file-system slice, and the file operations performed on the
stack configuration file, in order. -/
structure InitResult where
  result : Except String Unit
  fs : InitFs
  ops : List FsOp
  deriving Repr

/-- Go `Init` transliterated over `InitFs`.  `currentVersion` stands for
`Version()`; a successful run ends with `os.Create` plus
`PrintTerrastack(..., RequiredVersion: Version())`, which records the current
version in the file.  I/O failures of `Stat`/`Remove`/`Create` themselves
are environmental and not modelled. -/
def Init (fs : InitFs) (currentVersion : String) (force : Bool) : InitResult :=
  if !fs.dirIsAbs then
    ⟨.error "init requires an absolute path", fs, []⟩
  else if !fs.dirExists then
    ⟨.error "init requires an existing directory", fs, []⟩
  else if !fs.dirIsDir then
    ⟨.error "path is not a directory", fs, []⟩
  else
    let isInitialized := fs.stackfileExists
    if isInitialized && !fs.stackfileRegular then
      ⟨.error "the path is not a regular file", fs, []⟩
    else
      let versionCheck : Except String (List FsOp) :=
        if isInitialized && !force then
          match parseVersion fs with
          | .error e =>
            .error ("stack already initialized: error fetching version: " ++ e)
          | .ok version =>
            if version ≠ currentVersion then
              .error "stack already initialized with another version"
            else
              .ok [FsOp.removeStackfile]
        else
          .ok []
      match versionCheck with
      | .error e => ⟨.error e, fs, []⟩
      | .ok ops =>
        let newFs : InitFs :=
          { fs with
            stackfileExists := true
            stackfileRegular := true
            stackfileVersion := some currentVersion }
        ⟨.ok (), newFs, ops ++ [FsOp.createStackfile]⟩

/-- C10: calling `Init` with `force = false` on a directory whose existing
configuration file records a version different from the current tool version
returns an error, performs no file operation and leaves the file unchanged;
on an already-initialized directory the file is removed only when the parsed
version matches the current version with `force = false`, and any file
operation at all happens only when the versions match or `force = true`. -/
theorem c10_init_version_guard (fs : InitFs) (cur : String) (force : Bool) :
    (force = false → fs.stackfileExists = true →
      ∀ v, parseVersion fs = .ok v → v ≠ cur →
      (∃ msg, (Init fs cur force).result = .error msg) ∧
      (Init fs cur force).fs = fs ∧ (Init fs cur force).ops = []) ∧
    (FsOp.removeStackfile ∈ (Init fs cur force).ops →
      force = false ∧ parseVersion fs = .ok cur) ∧
    (fs.stackfileExists = true → (Init fs cur force).ops ≠ [] →
      parseVersion fs = .ok cur ∨ force = true) := by
  refine ⟨?_, ?_, ?_⟩
  · intro hforce hsf v hv hne
    subst hforce
    rcases Bool.eq_false_or_eq_true fs.dirIsAbs with habs | habs
    case inr =>
      refine ⟨⟨"init requires an absolute path", ?_⟩, ?_, ?_⟩ <;> simp [Init, habs]
    rcases Bool.eq_false_or_eq_true fs.dirExists with hex | hex
    case inr =>
      refine ⟨⟨"init requires an existing directory", ?_⟩, ?_, ?_⟩ <;>
        simp [Init, habs, hex]
    rcases Bool.eq_false_or_eq_true fs.dirIsDir with hdir | hdir
    case inr =>
      refine ⟨⟨"path is not a directory", ?_⟩, ?_, ?_⟩ <;> simp [Init, habs, hex, hdir]
    rcases Bool.eq_false_or_eq_true fs.stackfileRegular with hreg | hreg
    case inr =>
      refine ⟨⟨"the path is not a regular file", ?_⟩, ?_, ?_⟩ <;>
        simp [Init, habs, hex, hdir, hsf, hreg]
    refine ⟨⟨"stack already initialized with another version", ?_⟩, ?_, ?_⟩ <;>
      simp [Init, habs, hex, hdir, hsf, hreg, hv, hne]
  · intro hmem
    rcases Bool.eq_false_or_eq_true fs.dirIsAbs with habs | habs
    case inr => simp [Init, habs] at hmem
    rcases Bool.eq_false_or_eq_true fs.dirExists with hex | hex
    case inr => simp [Init, habs, hex] at hmem
    rcases Bool.eq_false_or_eq_true fs.dirIsDir with hdir | hdir
    case inr => simp [Init, habs, hex, hdir] at hmem
    rcases Bool.eq_false_or_eq_true fs.stackfileExists with hsf | hsf
    case inr => simp [Init, habs, hex, hdir, hsf] at hmem
    rcases Bool.eq_false_or_eq_true fs.stackfileRegular with hreg | hreg
    case inr => simp [Init, habs, hex, hdir, hsf, hreg] at hmem
    rcases Bool.eq_false_or_eq_true force with hfc | hfc
    case inl => simp [Init, habs, hex, hdir, hsf, hreg, hfc] at hmem
    subst hfc
    cases hpv : parseVersion fs with
    | error e => simp [Init, habs, hex, hdir, hsf, hreg, hpv] at hmem
    | ok ver =>
      by_cases hvc : ver = cur
      · exact ⟨rfl, congrArg Except.ok hvc⟩
      · simp [Init, habs, hex, hdir, hsf, hreg, hpv, hvc] at hmem
  · intro hsf hops
    rcases Bool.eq_false_or_eq_true force with hfc | hfc
    case inl => exact Or.inr hfc
    subst hfc
    rcases Bool.eq_false_or_eq_true fs.dirIsAbs with habs | habs
    case inr => exact absurd (by simp [Init, habs]) hops
    rcases Bool.eq_false_or_eq_true fs.dirExists with hex | hex
    case inr => exact absurd (by simp [Init, habs, hex]) hops
    rcases Bool.eq_false_or_eq_true fs.dirIsDir with hdir | hdir
    case inr => exact absurd (by simp [Init, habs, hex, hdir]) hops
    rcases Bool.eq_false_or_eq_true fs.stackfileRegular with hreg | hreg
    case inr => exact absurd (by simp [Init, habs, hex, hdir, hsf, hreg]) hops
    cases hpv : parseVersion fs with
    | error e => exact absurd (by simp [Init, habs, hex, hdir, hsf, hreg, hpv]) hops
    | ok ver =>
      by_cases hvc : ver = cur
      · exact Or.inl (congrArg Except.ok hvc)
      · exact absurd (by simp [Init, habs, hex, hdir, hsf, hreg, hpv, hvc]) hops

/-- Witness for C10: an initialized stack recording version `1.0.0` while the
tool is at `2.0.0`, with `force = false`: `Init` errors, changes nothing and
performs no file operation. -/
theorem c10_init_version_guard_witness :
    (∃ msg, (Init ⟨true, true, true, true, true, some "1.0.0"⟩ "2.0.0" false).result
      = .error msg) ∧
    (Init ⟨true, true, true, true, true, some "1.0.0"⟩ "2.0.0" false).fs =
      ⟨true, true, true, true, true, some "1.0.0"⟩ ∧
    (Init ⟨true, true, true, true, true, some "1.0.0"⟩ "2.0.0" false).ops = [] :=
  (c10_init_version_guard ⟨true, true, true, true, true, some "1.0.0"⟩ "2.0.0"
    false).1 rfl rfl "1.0.0" rfl (by decide)

/-! ## C3, C6: the generation engine and its report

The generation engine itself (`generate.Do`, `generate.Report`) is not part
of the source sample — only its benchmark test is — so the definitions below
are modelled from the spec (sections 3, 4.4 and 6). -/

/-- Modelled from the spec:
a generated file — its target path and its content.  (`generate.Do` and the
`Report` type are missing from the source sample; this and the following
`Gen`-related definitions model them from spec sections 3, 4.4 and 6.) -/
structure GenFile where
  path : String
  content : String
  deriving DecidableEq, Repr

/-- Modelled from the spec:
the per-stack state the generation engine sees — the stack path, the
deterministic evaluation result of the stack's generation blocks (the files
that should exist after the run), and the tool-managed generated files
currently on disk.  The stack list of a project tree is kept in the engine's
deterministic order (lexicographic by path). -/
structure StackState where
  stackPath : String
  desired : List GenFile
  disk : List GenFile
  deriving DecidableEq, Repr

/-- Modelled from the spec:
a per-stack report entry listing created / changed / deleted generated file
paths. -/
structure StackReport where
  stackPath : String
  created : List String
  changed : List String
  deleted : List String
  deriving DecidableEq, Repr

/-- The content of the managed file at path `p`, when present. -/
def lookupFile (files : List GenFile) (p : String) : Option String :=
  (files.find? (fun f => f.path == p)).map GenFile.content

/-- Does the entry report no file action at all? -/
def stackReportEmpty (r : StackReport) : Bool :=
  r.created.isEmpty && r.changed.isEmpty && r.deleted.isEmpty

/-- Modelled from the spec (4.4):
process one stack — compare each desired file against the on-disk state:
**created** when there is no prior file, **changed** when the content
differs, **unchanged** (reported nowhere) when identical; a previously
generated on-disk file that is no longer desired is **deleted**.  After the
run the on-disk managed files are exactly the desired files. -/
def doStack (st : StackState) : StackReport × StackState :=
  (⟨st.stackPath,
    (st.desired.filter (fun f => (lookupFile st.disk f.path).isNone)).map GenFile.path,
    (st.desired.filter (fun f =>
      match lookupFile st.disk f.path with
      | some c => c != f.content
      | none => false)).map GenFile.path,
    (st.disk.filter (fun f => (lookupFile st.desired f.path).isNone)).map GenFile.path⟩,
   { st with disk := st.desired })

/-- Modelled from the spec:
the report of one generation run; only stacks with at least one file action
appear under `successes`. -/
structure Report where
  successes : List StackReport
  deriving DecidableEq, Repr

/-- Modelled from the spec (4.4, 6):
the sole generation entry point `Do` (named `DoGenerate` here): process
every stack of the project
tree in deterministic order, collect the per-stack report entries (dropping
stacks with nothing to do) and return the new project state. -/
def DoGenerate (tree : List StackState) : Report × List StackState :=
  (⟨(tree.map (fun st => (doStack st).1)).filter (fun r => !stackReportEmpty r)⟩,
   tree.map (fun st => (doStack st).2))

/-- Modelled from the spec (6):
the verbatim sentence emitted when the report is empty. -/
def noCodegenMsg : String := "Nothing to do, generated code is up to date"

/-- Modelled from the spec (6): one line per file, prefixed by the marker. -/
def fileLines (marker : String) : List String → String
  | [] => ""
  | p :: rest => "\t" ++ marker ++ " " ++ p ++ "\n" ++ fileLines marker rest

/-- Modelled from the spec (6): the per-stack block of the Successes
section — the stack path, then one line per created / changed / deleted
file prefixed `[+]` / `[~]` / `[-]`. -/
def renderStackReport (r : StackReport) : String :=
  "- " ++ r.stackPath ++ "\n" ++
    fileLines "[+]" r.created ++ fileLines "[~]" r.changed ++ fileLines "[-]" r.deleted

/-- Modelled from the spec (6): the Successes section body. -/
def renderSuccesses : List StackReport → String
  | [] => ""
  | r :: rest => renderStackReport r ++ renderSuccesses rest

/-- Modelled from the spec (6): the report's summary header. -/
def reportHeader : String := "Code generation report\n\nSuccesses:\n\n"

/-- Modelled from the spec (6): the trailing legend line. -/
def reportLegend : String :=
  "\nHint: the symbols +, ~ and - mean the file was created, changed and deleted.\n"

/-- Modelled from the spec (6): the rendered report text — the fixed
template, or the verbatim "Nothing to do" sentence when the report is
empty. -/
def renderReport (r : Report) : String :=
  if r.successes.isEmpty then noCodegenMsg
  else reportHeader ++ renderSuccesses r.successes ++ reportLegend

theorem find?_eq_self_of_nodup (files : List GenFile) (f : GenFile)
    (hnd : (files.map GenFile.path).Nodup) (hmem : f ∈ files) :
    files.find? (fun g => g.path == f.path) = some f := by
  induction files with
  | nil => cases hmem
  | cons g rest ih =>
    rw [List.map_cons, List.nodup_cons] at hnd
    rcases List.mem_cons.mp hmem with rfl | hmem2
    · simp [List.find?_cons]
    · have hne : (g.path == f.path) = false := by
        simp only [beq_eq_false_iff_ne, ne_eq]
        intro hgf
        exact hnd.1 (hgf ▸ List.mem_map_of_mem GenFile.path hmem2)
      rw [List.find?_cons, hne]
      exact ih hnd.2 hmem2

theorem lookupFile_self (files : List GenFile) (f : GenFile)
    (hnd : (files.map GenFile.path).Nodup) (hmem : f ∈ files) :
    lookupFile files f.path = some f.content := by
  rw [lookupFile, find?_eq_self_of_nodup files f hnd hmem, Option.map_some']

/-- A stack whose disk state already equals its desired state reports
nothing. -/
theorem doStack_self_empty (st : StackState)
    (hnd : (st.desired.map GenFile.path).Nodup) :
    (doStack { st with disk := st.desired }).1 = ⟨st.stackPath, [], [], []⟩ := by
  have hc : ∀ f ∈ st.desired, lookupFile st.desired f.path = some f.content :=
    fun f hf => lookupFile_self st.desired f hnd hf
  simp only [doStack, StackReport.mk.injEq, List.map_eq_nil_iff,
    List.filter_eq_nil_iff]
  refine ⟨trivial, ?_, ?_, ?_⟩ <;> intro f hf <;> simp [hc f hf]

/-- C3: generation is idempotent — running `Do` a second time with no source
changes in between yields a report with no created/changed/deleted entries,
whose rendered text is the literal "Nothing to do" message. -/
theorem c3_generation_idempotent (tree : List StackState)
    (hnd : ∀ st ∈ tree, (st.desired.map GenFile.path).Nodup) :
    (DoGenerate (DoGenerate tree).2).1 = ⟨[]⟩ ∧
    renderReport (DoGenerate (DoGenerate tree).2).1 =
      "Nothing to do, generated code is up to date" := by
  have hrep : (DoGenerate (DoGenerate tree).2).1 = ⟨[]⟩ := by
    simp only [DoGenerate]
    refine congrArg _ ((List.filter_eq_nil_iff).mpr ?_)
    intro r hr
    simp only [List.map_map, List.mem_map, Function.comp] at hr
    obtain ⟨st, hst, hr⟩ := hr
    have hr2 : r = ⟨st.stackPath, [], [], []⟩ := by
      rw [← hr]
      exact doStack_self_empty st (hnd st hst)
    subst hr2
    simp [stackReportEmpty]
  refine ⟨hrep, ?_⟩
  rw [hrep]
  rfl

/-- Witness for C3: one stack that wants a single file generated; after the
first run, the second run has nothing to do. -/
theorem c3_generation_idempotent_witness :
    (DoGenerate (DoGenerate [⟨"/stack", [⟨"main.tf", "content"⟩], []⟩]).2).1 = ⟨[]⟩ ∧
    renderReport (DoGenerate (DoGenerate [⟨"/stack", [⟨"main.tf", "content"⟩], []⟩]).2).1 =
      "Nothing to do, generated code is up to date" :=
  c3_generation_idempotent [⟨"/stack", [⟨"main.tf", "content"⟩], []⟩]
    (by intro st hst; fin_cases hst; simp)

theorem string_join_cons (s : String) (rest : List String) :
    String.join (s :: rest) = s ++ String.join rest := by
  apply String.ext
  simp [String.data_join]

theorem fileLines_eq_join (marker : String) (ps : List String) :
    fileLines marker ps =
      String.join (ps.map (fun p => "\t" ++ marker ++ " " ++ p ++ "\n")) := by
  induction ps with
  | nil => rfl
  | cons p rest ih => rw [fileLines, ih, List.map_cons, string_join_cons]

theorem renderSuccesses_eq_join (rs : List StackReport) :
    renderSuccesses rs = String.join (rs.map renderStackReport) := by
  induction rs with
  | nil => rfl
  | cons r rest ih => rw [renderSuccesses, ih, List.map_cons, string_join_cons]

/-- C6: the rendered report text follows the fixed template — for an empty
report the exact "Nothing to do" sentence, otherwise the summary header, a
Successes section with, per stack path, one line per created / changed /
deleted file prefixed `[+]` / `[~]` / `[-]`, and the trailing legend
line. -/
theorem c6_report_template (r : Report) :
    (r.successes = [] →
      renderReport r = "Nothing to do, generated code is up to date") ∧
    (r.successes ≠ [] →
      renderReport r =
        reportHeader ++
        String.join (r.successes.map (fun s =>
          "- " ++ s.stackPath ++ "\n" ++
          String.join (s.created.map (fun p => "\t[+] " ++ p ++ "\n")) ++
          String.join (s.changed.map (fun p => "\t[~] " ++ p ++ "\n")) ++
          String.join (s.deleted.map (fun p => "\t[-] " ++ p ++ "\n")))) ++
        reportLegend) := by
  constructor
  · intro h
    rw [renderReport, if_pos (by simp [h])]
    rfl
  · intro h
    rw [renderReport, if_neg (by simp [h]), renderSuccesses_eq_join]
    refine congrArg₂ _ (congrArg _ (congrArg _ (List.map_congr_left ?_))) rfl
    intro s _
    rw [renderStackReport, fileLines_eq_join, fileLines_eq_join, fileLines_eq_join]
    simp [String.append_assoc]

/-- Witness for C6: a report with one stack that created one file, and the
empty report. -/
theorem c6_report_template_witness :
    renderReport ⟨[]⟩ = "Nothing to do, generated code is up to date" ∧
    renderReport ⟨[⟨"/stack", ["main.tf"], [], []⟩]⟩ =
      reportHeader ++
      String.join ([(⟨"/stack", ["main.tf"], [], []⟩ : StackReport)].map (fun s =>
        "- " ++ s.stackPath ++ "\n" ++
        String.join (s.created.map (fun p => "\t[+] " ++ p ++ "\n")) ++
        String.join (s.changed.map (fun p => "\t[~] " ++ p ++ "\n")) ++
        String.join (s.deleted.map (fun p => "\t[-] " ++ p ++ "\n")))) ++
      reportLegend :=
  ⟨(c6_report_template ⟨[]⟩).1 rfl,
   (c6_report_template ⟨[⟨"/stack", ["main.tf"], [], []⟩]⟩).2 (by simp)⟩

end Terramate
